import Mathlib

/-
A verification development for `degeneracy_detection.py`, a SageMath script
that filters kinematic-chain graphs containing rigid subchains.

The script's own logic (the `mobility` formula, the `no_rigid_subchains`
search loop, the degree-sequence partition key and the per-line processing
of graph6 input) is translated directly from the source.  The matroid
operations it calls (`Matroid(..., ring=GF(2))`, `dual`, `flats`, `delete`,
`is_connected`, `rank`) belong to the external SageMath matroid library and
are modelled from the specification's component design (sections 4.1, 4.2).
-/

/--
A matroid value as the script handles it: a finite groundset of element
identifiers together with a rank function on subsets of the groundset.
The script only ever queries the groundset and ranks of its subsets.
-/
structure PyMatroid where
  groundset : Finset ℕ
  rk : Finset ℕ → ℕ

/-- Sage's `my_matroid.rank()`: the rank of the full groundset. -/
def PyMatroid.rank (M : PyMatroid) : ℕ := M.rk M.groundset

/--
Modelled from the spec (section 4.2): the dual matroid keeps the groundset
and has rank function rank(S) = |S| − rank(groundset) + rank(groundset \ S).
Stated with truncated subtraction; for genuine matroids the subtraction is
exact (proved below as the dual-rank formula).
-/
def PyMatroid.dual (M : PyMatroid) : PyMatroid where
  groundset := M.groundset
  rk := fun S => S.card + M.rk (M.groundset \ S) - M.rk M.groundset

/--
Modelled from the spec (section 4.1): `delete` returns a matroid whose
groundset is the complement of the given subset and whose rank function is
the restriction of the parent's rank function to that complement.
-/
def PyMatroid.delete (M : PyMatroid) (F : Finset ℕ) : PyMatroid where
  groundset := M.groundset \ F
  rk := M.rk

/--
Modelled from the spec (section 4.1): a matroid is connected iff it cannot
be partitioned into two non-empty groundset subsets A, B with
rank(A ∪ B) = rank(A) + rank(B); equivalently it has exactly one
circuit-connectivity component.  A matroid with an empty groundset has no
component at all, hence is not connected (this is the library convention the
script relies on: deleting the full-groundset flat never yields a connected
sub-matroid).
-/
def PyMatroid.is_connected (M : PyMatroid) : Bool :=
  decide (M.groundset ≠ ∅) &&
    decide (∀ A ∈ M.groundset.powerset, A ≠ ∅ → A ≠ M.groundset →
      M.rk A + M.rk (M.groundset \ A) ≠ M.rk M.groundset)

/--
Modelled from the spec (section 4.2): `flats(r)` returns every closed subset
of the groundset whose rank is exactly r; a subset is closed iff adding any
groundset element outside it strictly increases the rank.
-/
def PyMatroid.flats (M : PyMatroid) (r : ℕ) : Finset (Finset ℕ) :=
  M.groundset.powerset.filter
    (fun F => M.rk F = r ∧ ∀ e ∈ M.groundset \ F, M.rk F < M.rk (insert e F))

/-- The loops of a matroid: the elements of rank zero. -/
def PyMatroid.loops (M : PyMatroid) : Finset ℕ :=
  M.groundset.filter (fun e => M.rk {e} = 0)

/--
The rank axioms (spec sections 3 and 4.1): rank of the empty set is zero,
rank is bounded by cardinality, monotonic and submodular on subsets of the
groundset.  Quantifiers range over the powerset of the groundset so the
predicate is decidable on concrete matroids.
-/
def PyMatroid.IsMatroid (M : PyMatroid) : Prop :=
  M.rk ∅ = 0 ∧
  (∀ S ∈ M.groundset.powerset, M.rk S ≤ S.card) ∧
  (∀ S ∈ M.groundset.powerset, ∀ T ∈ M.groundset.powerset,
      S ⊆ T → M.rk S ≤ M.rk T) ∧
  (∀ S ∈ M.groundset.powerset, ∀ T ∈ M.groundset.powerset,
      M.rk (S ∪ T) + M.rk (S ∩ T) ≤ M.rk S + M.rk T)

instance (M : PyMatroid) : Decidable M.IsMatroid := by
  unfold PyMatroid.IsMatroid
  infer_instance

/--
`mobility` from the source (lines 18-21): the mobility of a chain is
screw_system * (rank - joints) + joints, over the integers.
-/
def mobility (rank : ℕ) (joints : ℕ) (screw_system : ℤ) : ℤ :=
  screw_system * ((rank : ℤ) - (joints : ℤ)) + (joints : ℤ)

/--
`no_rigid_subchains` from the source (lines 23-57): for each co_rank from 0
to the dual rank inclusive, for each flat of the dual matroid of that rank,
delete the flat from the original matroid; if the sub-matroid is connected,
has mobility ≤ 0 and a groundset strictly smaller than the original, the
loop returns False; otherwise the function returns True.  The early-return
double loop is rendered as the negation of a search: the outer loop is a
`List.any` over the co-rank range, the inner loop a decidable existential
over the finite set of flats.
-/
def no_rigid_subchains (M : PyMatroid) (screw_system : ℤ) : Bool :=
  let my_groundset := M.groundset
  let my_dual_matroid := M.dual
  let my_dual_rank := my_dual_matroid.rank
  !((List.range (my_dual_rank + 1)).any fun co_rank =>
    decide (∃ co_flat ∈ my_dual_matroid.flats co_rank,
      (M.delete co_flat).is_connected = true ∧
      mobility (M.delete co_flat).rank (M.delete co_flat).groundset.card
          screw_system ≤ 0 ∧
      (M.delete co_flat).groundset.card < my_groundset.card))

/--
One step of Gaussian elimination over GF(2): columns are bit masks, the
first component is the list of all vectors in the span so far, the second
the number of independent columns seen.  A column already in the span leaves
the state unchanged; a new column doubles the span and bumps the rank.
-/
def gf2Insert (st : List ℕ × ℕ) (c : ℕ) : List ℕ × ℕ :=
  if c ∈ st.1 then st else (st.1 ++ st.1.map (fun v => Nat.xor v c), st.2 + 1)

/-- The GF(2) rank of a list of columns given as bit masks. -/
def rank2 (cols : List ℕ) : ℕ := (cols.foldl gf2Insert ([0], 0)).2

/-- The sub-list of columns whose indices lie in `S`. -/
def selectCols (cols : List ℕ) (S : Finset ℕ) : List ℕ :=
  (cols.enum.filter (fun p => p.1 ∈ S)).map (fun p => p.2)

/--
The binary matroid represented by a list of GF(2) columns (as bit masks):
Sage's `Matroid(matrix, ring=GF(2))`.  The groundset is the column index
range and the rank of a subset is the GF(2) rank of the selected columns.
-/
def colMatroid (cols : List ℕ) : PyMatroid where
  groundset := Finset.range cols.length
  rk := fun S => rank2 (selectCols cols S)

/--
The GF(2) incidence columns of a graph given by its edge list: the column of
edge (u, v) has ones exactly at rows u and v (a self-loop column is zero,
matching an incidence matrix reduced mod 2).
-/
def incidenceCols (edges : List (ℕ × ℕ)) : List ℕ :=
  edges.map (fun e => Nat.xor (2 ^ e.1) (2 ^ e.2))

/--
The matroid the script builds from a graph:
`Matroid(my_graph.incidence_matrix(), ring=GF(2))` (source line 27).  The
search of `no_rigid_subchains` below receives this matroid directly, as in
the spec's 4.3 contract `isFreeOfRigidSubchains(matroid, screwSystem)`.
-/
def graphMatroid (edges : List (ℕ × ℕ)) : PyMatroid :=
  colMatroid (incidenceCols edges)

/--
A decoded graph as the script sees it: a vertex count (vertices are
0, ..., n-1) and a list of edges between vertices.
-/
structure PyGraph where
  n : ℕ
  edges : List (ℕ × ℕ)

/-- The degree of vertex v: how many edges are incident to it. -/
def PyGraph.degree (g : PyGraph) (v : ℕ) : ℕ :=
  (g.edges.filter (fun e => e.1 = v || e.2 = v)).length

/--
Modelled from the spec: Sage's `degree_sequence()` provides the multiset of
vertex degrees; it is listed here in vertex order, which the script cannot
distinguish since it only takes the maximum and counts occurrences.
-/
def PyGraph.degree_sequence (g : PyGraph) : List ℕ :=
  (List.range g.n).map g.degree

/--
The degree-sequence partition key (source lines 84-86):
`[graph_deg_sequence.count(i) for i in range(2, max(graph_deg_sequence) + 1)]`.
Python's `max` raises ValueError on an empty sequence, rendered as `none`.
-/
def partitionOf (g : PyGraph) : Option (List ℕ) :=
  let graph_deg_sequence := g.degree_sequence
  match graph_deg_sequence.max? with
  | none => none
  | some m =>
    some ((List.range' 2 (m + 1 - 2)).map fun i => graph_deg_sequence.count i)

/--
The graph6 string extraction (source line 79):
`g6_string = line.replace(line[-1], "")` removes every occurrence of the
line's last character, not only a trailing newline.  Python raises
IndexError when indexing an empty line, rendered as `none`.
-/
def g6OfLine (line : List Char) : Option (List Char) :=
  match line.getLast? with
  | none => none
  | some c => some (line.filter (fun a => a ≠ c))

/--
`number_assur` from the source (lines 59-67), with the external
automorphism-orbit collaborator abstracted as `orbitCount` (spec section 6):
the number of orbits rendered as a string.
-/
def number_assur (orbitCount : PyGraph → ℕ) (my_graph : PyGraph) : String :=
  toString (orbitCount my_graph)

/--
The body of the per-line loop of `graphs_from_txt` (source lines 76-99),
with the external graph6 decoder and the orbit-count collaborator abstracted
as parameters (spec section 6).  The writes are rendered as the returned
list of (output file, appended line) records, in the order the script
performs them; fallible steps yield `none`.
-/
def processLine (decode : List Char → PyGraph) (orbitCount : PyGraph → ℕ)
    (graph_write : String) (line : List Char) :
    Option (List (String × String)) :=
  match g6OfLine line with
  | none => none
  | some g6_string =>
    let my_graph := decode g6_string
    match partitionOf my_graph with
    | none => none
    | some partition =>
      some (if no_rigid_subchains (graphMatroid my_graph.edges) 3 = true then
        [(graph_write ++ "baranov_" ++ toString partition,
            String.mk g6_string ++ "\n"),
         (graph_write ++ "assur_" ++ toString partition,
            number_assur orbitCount my_graph ++ "\n")]
      else [])

/--
Relabelling of a graph's vertices by a function f: the abstract graph is
unchanged when f permutes the vertex range.
-/
def permuteVertices (g : PyGraph) (f : ℕ → ℕ) : PyGraph where
  n := g.n
  edges := g.edges.map (fun e => (f e.1, f e.2))

/--
The general shape of the search in `no_rigid_subchains`: it returns False
exactly when some flat of the dual matroid, of some rank within the co-rank
loop range, deletes to a connected sub-matroid of non-positive mobility on a
properly smaller groundset.
-/
theorem no_rigid_subchains_false_iff_gen (M : PyMatroid) (s : ℤ) :
    no_rigid_subchains M s = false ↔
      ∃ co_rank ≤ M.dual.rank, ∃ F ∈ M.dual.flats co_rank,
        (M.delete F).is_connected = true ∧
        mobility (M.delete F).rank (M.delete F).groundset.card s ≤ 0 ∧
        (M.delete F).groundset.card < M.groundset.card := by
  unfold no_rigid_subchains
  simp [List.any_eq_true, List.mem_range, Nat.lt_succ_iff]

/--
C1: for every matroid built from a graph's incidence structure over GF(2)
and every positive screw system, `no_rigid_subchains` returns False iff some
co-rank within 0..rank(dual) admits a flat of the dual matroid of that rank
whose deletion is connected, has non-positive mobility and a groundset
strictly smaller than the whole; otherwise it returns True.
-/
theorem no_rigid_subchains_false_iff (edges : List (ℕ × ℕ)) (s : ℤ)
    (hs : 0 < s) :
    no_rigid_subchains (graphMatroid edges) s = false ↔
      ∃ co_rank ≤ (graphMatroid edges).dual.rank,
        ∃ F ∈ (graphMatroid edges).dual.flats co_rank,
          ((graphMatroid edges).delete F).is_connected = true ∧
          mobility ((graphMatroid edges).delete F).rank
              ((graphMatroid edges).delete F).groundset.card s ≤ 0 ∧
          ((graphMatroid edges).delete F).groundset.card <
            (graphMatroid edges).groundset.card :=
  no_rigid_subchains_false_iff_gen _ s

/-- Witness for C1 at the triangle-with-pendant-edge graph and screw system 3. -/
theorem no_rigid_subchains_false_iff_witness :
    (0 : ℤ) < 3 ∧
      (no_rigid_subchains (graphMatroid [(0,1),(1,2),(2,0),(0,3)]) 3 = false ↔
        ∃ co_rank ≤ (graphMatroid [(0,1),(1,2),(2,0),(0,3)]).dual.rank,
          ∃ F ∈ (graphMatroid [(0,1),(1,2),(2,0),(0,3)]).dual.flats co_rank,
            ((graphMatroid [(0,1),(1,2),(2,0),(0,3)]).delete F).is_connected
                = true ∧
            mobility ((graphMatroid [(0,1),(1,2),(2,0),(0,3)]).delete F).rank
                ((graphMatroid [(0,1),(1,2),(2,0),(0,3)]).delete
                  F).groundset.card 3 ≤ 0 ∧
            ((graphMatroid [(0,1),(1,2),(2,0),(0,3)]).delete F).groundset.card
              < (graphMatroid [(0,1),(1,2),(2,0),(0,3)]).groundset.card) :=
  ⟨by decide, no_rigid_subchains_false_iff [(0,1),(1,2),(2,0),(0,3)] 3 (by decide)⟩

/--
C4: the 4-bar linkage's cycle matroid has 4 elements and rank 3, and
`no_rigid_subchains` with screw system 3 returns True on it: no proper
connected sub-matroid obtained by deleting a dual flat has non-positive
mobility.
-/
theorem fourbar_no_rigid_subchains :
    (graphMatroid [(0,1),(1,2),(2,3),(3,0)]).groundset.card = 4 ∧
    (graphMatroid [(0,1),(1,2),(2,3),(3,0)]).rank = 3 ∧
    no_rigid_subchains (graphMatroid [(0,1),(1,2),(2,3),(3,0)]) 3 = true := by
  decide

theorem rk_le_card_of_isMatroid (M : PyMatroid) (h : M.IsMatroid)
    {S : Finset ℕ} (hS : S ⊆ M.groundset) : M.rk S ≤ S.card :=
  h.2.1 S (Finset.mem_powerset.mpr hS)

theorem rk_mono_of_isMatroid (M : PyMatroid) (h : M.IsMatroid)
    {S T : Finset ℕ} (hT : T ⊆ M.groundset) (hST : S ⊆ T) :
    M.rk S ≤ M.rk T :=
  h.2.2.1 S (Finset.mem_powerset.mpr (hST.trans hT)) T
    (Finset.mem_powerset.mpr hT) hST

theorem rk_submod_of_isMatroid (M : PyMatroid) (h : M.IsMatroid)
    {S T : Finset ℕ} (hS : S ⊆ M.groundset) (hT : T ⊆ M.groundset) :
    M.rk (S ∪ T) + M.rk (S ∩ T) ≤ M.rk S + M.rk T :=
  h.2.2.2 S (Finset.mem_powerset.mpr hS) T (Finset.mem_powerset.mpr hT)

theorem rk_union_le_of_isMatroid (M : PyMatroid) (h : M.IsMatroid)
    {S T : Finset ℕ} (hS : S ⊆ M.groundset) (hT : T ⊆ M.groundset) :
    M.rk (S ∪ T) ≤ M.rk S + M.rk T := by
  have h1 := rk_submod_of_isMatroid M h hS hT
  omega

/-- For S inside the groundset, rank(E) ≤ rank(E \ S) + |S|. -/
theorem rk_groundset_le (M : PyMatroid) (h : M.IsMatroid)
    {S : Finset ℕ} (hS : S ⊆ M.groundset) :
    M.rk M.groundset ≤ M.rk (M.groundset \ S) + S.card := by
  have h1 : (M.groundset \ S) ∪ S = M.groundset := Finset.sdiff_union_of_subset hS
  have h2 := rk_union_le_of_isMatroid M h
    (Finset.sdiff_subset : M.groundset \ S ⊆ M.groundset) hS
  rw [h1] at h2
  have h3 := rk_le_card_of_isMatroid M h hS
  omega

/-- The truncated subtraction in the dual rank is exact on genuine matroids. -/
theorem dual_rk_eq (M : PyMatroid) (h : M.IsMatroid)
    {S : Finset ℕ} (hS : S ⊆ M.groundset) :
    (M.dual.rk S : ℤ) =
      (S.card : ℤ) - M.rk M.groundset + M.rk (M.groundset \ S) := by
  have hle := rk_groundset_le M h hS
  have e1 : M.dual.rk S = S.card + M.rk (M.groundset \ S) - M.rk M.groundset :=
    rfl
  rw [e1]
  omega

theorem dual_rank_eq (M : PyMatroid) (h : M.IsMatroid) :
    (M.dual.rank : ℤ) = (M.groundset.card : ℤ) - M.rank := by
  have h1 := dual_rk_eq M h (Finset.Subset.refl M.groundset)
  rw [Finset.sdiff_self, h.1] at h1
  have e1 : M.dual.rank = M.dual.rk M.groundset := rfl
  rw [e1, h1, PyMatroid.rank]
  omega

theorem dual_rk_mono (M : PyMatroid) (h : M.IsMatroid)
    {S T : Finset ℕ} (hT : T ⊆ M.groundset) (hST : S ⊆ T) :
    M.dual.rk S ≤ M.dual.rk T := by
  have hS : S ⊆ M.groundset := hST.trans hT
  have hdecomp : M.groundset \ S = (M.groundset \ T) ∪ (T \ S) := by
    ext a
    simp only [Finset.mem_sdiff, Finset.mem_union]
    constructor
    · rintro ⟨ha, haS⟩
      by_cases haT : a ∈ T
      · exact Or.inr ⟨haT, haS⟩
      · exact Or.inl ⟨ha, haT⟩
    · rintro (⟨ha, haT⟩ | ⟨haT, haS⟩)
      · exact ⟨ha, fun hc => haT (hST hc)⟩
      · exact ⟨hT haT, haS⟩
  have h1 : M.rk (M.groundset \ S) ≤ M.rk (M.groundset \ T) + (T \ S).card := by
    rw [hdecomp]
    have h2 := rk_union_le_of_isMatroid M h
      (Finset.sdiff_subset : M.groundset \ T ⊆ M.groundset)
      ((Finset.sdiff_subset : T \ S ⊆ T).trans hT)
    have h3 := rk_le_card_of_isMatroid M h
      ((Finset.sdiff_subset : T \ S ⊆ T).trans hT)
    omega
  have hcardTS : (T \ S).card = T.card - S.card := Finset.card_sdiff hST
  have hcardle : S.card ≤ T.card := Finset.card_le_card hST
  have e1 : M.dual.rk S = S.card + M.rk (M.groundset \ S) - M.rk M.groundset :=
    rfl
  have e2 : M.dual.rk T = T.card + M.rk (M.groundset \ T) - M.rk M.groundset :=
    rfl
  rw [e1, e2]
  omega

theorem dual_rk_submod (M : PyMatroid) (h : M.IsMatroid)
    {S T : Finset ℕ} (hS : S ⊆ M.groundset) (hT : T ⊆ M.groundset) :
    M.dual.rk (S ∪ T) + M.dual.rk (S ∩ T) ≤ M.dual.rk S + M.dual.rk T := by
  have hU : S ∪ T ⊆ M.groundset := Finset.union_subset hS hT
  have hI : S ∩ T ⊆ M.groundset := Finset.inter_subset_left.trans hS
  have hd1 : M.groundset \ (S ∪ T) = (M.groundset \ S) ∩ (M.groundset \ T) := by
    ext a
    simp only [Finset.mem_sdiff, Finset.mem_union, Finset.mem_inter]
    tauto
  have hd2 : M.groundset \ (S ∩ T) = (M.groundset \ S) ∪ (M.groundset \ T) := by
    ext a
    simp only [Finset.mem_sdiff, Finset.mem_union, Finset.mem_inter]
    tauto
  have hsub2 := rk_submod_of_isMatroid M h
    (Finset.sdiff_subset : M.groundset \ S ⊆ M.groundset)
    (Finset.sdiff_subset : M.groundset \ T ⊆ M.groundset)
  rw [← hd2, ← hd1] at hsub2
  have hcard : (S ∪ T).card + (S ∩ T).card = S.card + T.card :=
    Finset.card_union_add_card_inter S T
  have hx1 := rk_groundset_le M h hS
  have hx2 := rk_groundset_le M h hT
  have hx3 := rk_groundset_le M h hU
  have hx4 := rk_groundset_le M h hI
  have e1 : M.dual.rk S = S.card + M.rk (M.groundset \ S) - M.rk M.groundset :=
    rfl
  have e2 : M.dual.rk T = T.card + M.rk (M.groundset \ T) - M.rk M.groundset :=
    rfl
  have e3 : M.dual.rk (S ∪ T) =
      (S ∪ T).card + M.rk (M.groundset \ (S ∪ T)) - M.rk M.groundset := rfl
  have e4 : M.dual.rk (S ∩ T) =
      (S ∩ T).card + M.rk (M.groundset \ (S ∩ T)) - M.rk M.groundset := rfl
  rw [e1, e2, e3, e4]
  omega

/-- A subset of the loops of a matroid has rank zero. -/
theorem rk_subset_loops_zero (N : PyMatroid) (h0 : N.rk ∅ = 0)
    (hsub : ∀ S T : Finset ℕ, S ⊆ N.groundset → T ⊆ N.groundset →
        N.rk (S ∪ T) + N.rk (S ∩ T) ≤ N.rk S + N.rk T) :
    ∀ L ⊆ N.loops, N.rk L = 0 := by
  intro L
  induction L using Finset.induction_on with
  | empty => intro _; exact h0
  | @insert a s ha ih =>
    intro hins
    have hL : N.loops ⊆ N.groundset := Finset.filter_subset _ _
    have has : a ∈ N.loops := hins (Finset.mem_insert_self a s)
    have hs : s ⊆ N.loops := (Finset.subset_insert a s).trans hins
    have hrka : N.rk {a} = 0 := (Finset.mem_filter.mp has).2
    have hrks : N.rk s = 0 := ih hs
    have h1 := hsub s {a} (hs.trans hL)
      (Finset.singleton_subset_iff.mpr (hL has))
    have h2 : s ∪ {a} = insert a s := by
      rw [Finset.union_comm, ← Finset.insert_eq]
    rw [h2] at h1
    omega

/--
The flats of rank zero of a matroid: exactly one, the set of its loops
(the closure of the empty set).
-/
theorem flats_zero_eq (N : PyMatroid) (h0 : N.rk ∅ = 0)
    (hmono : ∀ S T : Finset ℕ, T ⊆ N.groundset → S ⊆ T → N.rk S ≤ N.rk T)
    (hsub : ∀ S T : Finset ℕ, S ⊆ N.groundset → T ⊆ N.groundset →
        N.rk (S ∪ T) + N.rk (S ∩ T) ≤ N.rk S + N.rk T) :
    N.flats 0 = {N.loops} := by
  have hL : N.loops ⊆ N.groundset := Finset.filter_subset _ _
  ext F
  simp only [PyMatroid.flats, Finset.mem_filter, Finset.mem_powerset,
    Finset.mem_singleton]
  constructor
  · rintro ⟨hFE, hF0, hclosed⟩
    apply Finset.Subset.antisymm
    · intro e he
      have h1 : N.rk {e} ≤ N.rk F :=
        hmono {e} F hFE (Finset.singleton_subset_iff.mpr he)
      exact Finset.mem_filter.mpr ⟨hFE he, by omega⟩
    · intro e he
      by_contra heF
      have hclose := hclosed e (Finset.mem_sdiff.mpr ⟨hL he, heF⟩)
      have hrke : N.rk {e} = 0 := (Finset.mem_filter.mp he).2
      have h1 := hsub F {e} hFE (Finset.singleton_subset_iff.mpr (hL he))
      have h2 : F ∪ {e} = insert e F := by
        rw [Finset.union_comm, ← Finset.insert_eq]
      rw [h2] at h1
      omega
  · rintro rfl
    have h3 : N.rk N.loops = 0 :=
      rk_subset_loops_zero N h0 hsub N.loops (Finset.Subset.refl _)
    refine ⟨hL, h3, ?_⟩
    intro e he
    rcases Finset.mem_sdiff.mp he with ⟨heg, hel⟩
    have h1 : N.rk {e} ≤ N.rk (insert e N.loops) :=
      hmono {e} (insert e N.loops) (Finset.insert_subset heg hL) (by simp)
    have h2 : N.rk {e} ≠ 0 := fun hc => hel (Finset.mem_filter.mpr ⟨heg, hc⟩)
    omega

/--
C5: for every binary matroid, the dual used by the evaluator has rank
function rank(S) = |S| − rank(E) + rank(E \ S) on every subset S of the
groundset (as an identity of integers), and the rank of the dual's full
groundset, the value `my_dual_rank` bounding the co-rank loop, equals
|E| − rank(M).
-/
theorem dual_rank_formula (M : PyMatroid) (h : M.IsMatroid) :
    (∀ S ∈ M.groundset.powerset,
        (M.dual.rk S : ℤ) =
          (S.card : ℤ) - M.rk M.groundset + M.rk (M.groundset \ S)) ∧
    (M.dual.rank : ℤ) = (M.groundset.card : ℤ) - M.rank :=
  ⟨fun S hS => dual_rk_eq M h (Finset.mem_powerset.mp hS), dual_rank_eq M h⟩

/-- Witness for C5 at a concrete three-column binary matroid. -/
theorem dual_rank_formula_witness :
    ((colMatroid [1, 1, 2]).dual.rank : ℤ) =
      ((colMatroid [1, 1, 2]).groundset.card : ℤ) - (colMatroid [1, 1, 2]).rank :=
  (dual_rank_formula (colMatroid [1, 1, 2]) (by decide)).2

/--
C2 counterexample: for the triangle-with-pendant-edge incidence matroid (a
genuine matroid, whose pendant edge is a coloop), coRank = 0 does NOT yield
the empty flat of the dual matroid: the rank-0 flat is the singleton bridge
edge set.
-/
theorem corank_zero_flat_nonempty_cex :
    (graphMatroid [(0,1),(1,2),(2,0),(0,3)]).IsMatroid ∧
    (graphMatroid [(0,1),(1,2),(2,0),(0,3)]).dual.flats 0 ≠
      {(∅ : Finset ℕ)} ∧
    ({3} : Finset ℕ) ∈ (graphMatroid [(0,1),(1,2),(2,0),(0,3)]).dual.flats 0 := by
  decide

/--
C2 corrected: coRank = 0 yields exactly one flat of the dual matroid, the
set of the dual's loops (the coloops of M); it is the empty flat only when M
has no coloops.  Deleting the empty set returns the whole matroid, and the
whole-matroid candidate is always skipped by the strict size inequality: a
returned False always comes from a non-empty flat whose deletion is a proper
sub-matroid, so a chain whose entire matroid has non-positive mobility is
never by itself cause for `no_rigid_subchains` to return False.
-/
theorem corank_zero_flats_eq_dual_loops (M : PyMatroid) (h : M.IsMatroid)
    (s : ℤ) :
    M.dual.flats 0 = {M.dual.loops} ∧
    M.delete ∅ = M ∧
    (no_rigid_subchains M s = false →
      ∃ co_rank ≤ M.dual.rank, ∃ F ∈ M.dual.flats co_rank, F.Nonempty ∧
        (M.delete F).is_connected = true ∧
        mobility (M.delete F).rank (M.delete F).groundset.card s ≤ 0 ∧
        (M.delete F).groundset.card < M.groundset.card) := by
  refine ⟨?_, ?_, ?_⟩
  · apply flats_zero_eq M.dual
    · have e1 : M.dual.rk ∅ =
          Finset.card ∅ + M.rk (M.groundset \ ∅) - M.rk M.groundset := rfl
      rw [e1, Finset.sdiff_empty, Finset.card_empty]
      omega
    · exact fun S T hT hST => dual_rk_mono M h hT hST
    · exact fun S T hS hT => dual_rk_submod M h hS hT
  · cases M with
    | mk g r =>
      show PyMatroid.mk (g \ ∅) r = PyMatroid.mk g r
      rw [Finset.sdiff_empty]
  · intro hfalse
    obtain ⟨c, hc, F, hF, hconn, hmob, hcard⟩ :=
      (no_rigid_subchains_false_iff_gen M s).mp hfalse
    refine ⟨c, hc, F, hF, ?_, hconn, hmob, hcard⟩
    rcases Finset.eq_empty_or_nonempty F with rfl | hne
    · have e1 : (M.delete ∅).groundset = M.groundset \ ∅ := rfl
      rw [e1, Finset.sdiff_empty] at hcard
      omega
    · exact hne

/-- Witness for C2's corrected statement at a concrete binary matroid. -/
theorem corank_zero_flats_eq_dual_loops_witness :
    (colMatroid [1, 1, 2]).dual.flats 0 = {(colMatroid [1, 1, 2]).dual.loops} :=
  (corank_zero_flats_eq_dual_loops (colMatroid [1, 1, 2]) (by decide) 3).1

/--
C3 counterexample: the two-element matroid of rank 0 (its rank function is
constantly zero, forced by monotonicity) is a genuine matroid but is NOT
connected: the rank-0 singleton partition {0} / {1} is a direct-sum
decomposition.  A "2-element connected sub-matroid of rank 0" therefore
never exists, so the claim's premise is contradictory; the parallel-pair
scenario it describes has rank 1.
-/
theorem rank_zero_pair_not_connected :
    (PyMatroid.mk {0, 1} (fun _ => 0)).IsMatroid ∧
    (PyMatroid.mk {0, 1} (fun _ => 0)).rank = 0 ∧
    (PyMatroid.mk {0, 1} (fun _ => 0)).groundset.card = 2 ∧
    (PyMatroid.mk {0, 1} (fun _ => 0)).is_connected = false := by
  decide

/--
C3 corrected: for every matroid M with more than 2 groundset elements that
contains an embedded 2-element connected sub-matroid of rank 1 (a parallel
pair) reachable as M.delete(F) for some flat F of the dual matroid,
`no_rigid_subchains M 3` returns False: the sub-matroid's mobility is
3 × (1 − 2) + 2 = −1 ≤ 0 and its groundset size 2 is strictly below the
total.
-/
theorem parallel_pair_subchain_rigid (M : PyMatroid) (h : M.IsMatroid)
    (F : Finset ℕ) (hF : F ∈ M.dual.flats (M.dual.rk F))
    (hbig : 2 < M.groundset.card)
    (hcard2 : (M.delete F).groundset.card = 2)
    (hrank1 : (M.delete F).rank = 1)
    (hconn : (M.delete F).is_connected = true) :
    no_rigid_subchains M 3 = false := by
  apply (no_rigid_subchains_false_iff_gen M 3).mpr
  have hFE : F ⊆ M.groundset :=
    Finset.mem_powerset.mp (Finset.mem_filter.mp hF).1
  refine ⟨M.dual.rk F, ?_, F, hF, hconn, ?_, ?_⟩
  · exact dual_rk_mono M h (Finset.Subset.refl M.groundset) hFE
  · rw [hrank1, hcard2]
    decide
  · omega

/-- Witness for C3's corrected statement: two parallel columns plus an
independent one. -/
theorem parallel_pair_subchain_rigid_witness :
    no_rigid_subchains (colMatroid [1, 1, 2]) 3 = false :=
  parallel_pair_subchain_rigid (colMatroid [1, 1, 2]) (by decide)
    {2} (by decide) (by decide) (by decide) (by decide) (by decide)

/--
C7: `no_rigid_subchains` is a pure function of the matroid value: two
invocations on matroids with the same groundset and the same rank function
on subsets of the groundset (in particular, two invocations on the same
matroid) return the same boolean, whatever the screw system.
-/
theorem no_rigid_subchains_deterministic (M1 M2 : PyMatroid)
    (hE : M1.groundset = M2.groundset)
    (hrk : ∀ S ∈ M1.groundset.powerset, M1.rk S = M2.rk S) (s : ℤ) :
    no_rigid_subchains M1 s = no_rigid_subchains M2 s := by
  have hrk' : ∀ S, S ⊆ M1.groundset → M1.rk S = M2.rk S := fun S hS =>
    hrk S (Finset.mem_powerset.mpr hS)
  have hdual : ∀ S, S ⊆ M1.groundset → M1.dual.rk S = M2.dual.rk S := by
    intro S hS
    have e1 : M1.dual.rk S =
        S.card + M1.rk (M1.groundset \ S) - M1.rk M1.groundset := rfl
    have e2 : M2.dual.rk S =
        S.card + M2.rk (M2.groundset \ S) - M2.rk M2.groundset := rfl
    rw [e1, e2, ← hE, hrk' _ (Finset.sdiff_subset : M1.groundset \ S ⊆ _),
      hrk' _ (Finset.Subset.refl _)]
  have hdrank : M1.dual.rank = M2.dual.rank := by
    have e1 : M1.dual.rank = M1.dual.rk M1.groundset := rfl
    have e2 : M2.dual.rank = M2.dual.rk M2.groundset := rfl
    rw [e1, e2, ← hE, hdual _ (Finset.Subset.refl _)]
  have hflats : ∀ r, M1.dual.flats r = M2.dual.flats r := by
    intro r
    ext F
    simp only [PyMatroid.flats, Finset.mem_filter, Finset.mem_powerset]
    have e1 : M1.dual.groundset = M1.groundset := rfl
    have e2 : M2.dual.groundset = M2.groundset := rfl
    rw [e1, e2, ← hE]
    constructor
    · rintro ⟨hFE, hr, hcl⟩
      refine ⟨hFE, by rw [← hdual F hFE]; exact hr, ?_⟩
      intro e he
      rw [← hdual F hFE, ← hdual (insert e F)
        (Finset.insert_subset (Finset.mem_sdiff.mp he).1 hFE)]
      exact hcl e he
    · rintro ⟨hFE, hr, hcl⟩
      refine ⟨hFE, by rw [hdual F hFE]; exact hr, ?_⟩
      intro e he
      rw [hdual F hFE, hdual (insert e F)
        (Finset.insert_subset (Finset.mem_sdiff.mp he).1 hFE)]
      exact hcl e he
  have hgs : ∀ F, (M1.delete F).groundset = (M2.delete F).groundset := by
    intro F
    have e1 : (M1.delete F).groundset = M1.groundset \ F := rfl
    have e2 : (M2.delete F).groundset = M2.groundset \ F := rfl
    rw [e1, e2, hE]
  have hrankdel : ∀ F, (M1.delete F).rank = (M2.delete F).rank := by
    intro F
    have e1 : (M1.delete F).rank = M1.rk (M1.groundset \ F) := rfl
    have e2 : (M2.delete F).rank = M2.rk (M2.groundset \ F) := rfl
    rw [e1, e2, ← hE, hrk' _ (Finset.sdiff_subset : M1.groundset \ F ⊆ _)]
  have hconn : ∀ F, (M1.delete F).is_connected = (M2.delete F).is_connected := by
    intro F
    unfold PyMatroid.is_connected
    have e1 : (M1.delete F).groundset = M1.groundset \ F := rfl
    have e2 : (M2.delete F).groundset = M2.groundset \ F := rfl
    have e3 : (M1.delete F).rk = M1.rk := rfl
    have e4 : (M2.delete F).rk = M2.rk := rfl
    rw [e1, e2, e3, e4, ← hE]
    have hsub1 : M1.groundset \ F ⊆ M1.groundset :=
      Finset.sdiff_subset
    congr 1
    apply decide_eq_decide.mpr
    constructor
    · intro hA A hAmem hne hneq
      have hAE : A ⊆ M1.groundset \ F := Finset.mem_powerset.mp hAmem
      rw [← hrk' A (hAE.trans hsub1),
        ← hrk' _ ((Finset.sdiff_subset : (M1.groundset \ F) \ A ⊆ _).trans hsub1),
        ← hrk' _ hsub1]
      exact hA A hAmem hne hneq
    · intro hA A hAmem hne hneq
      have hAE : A ⊆ M1.groundset \ F := Finset.mem_powerset.mp hAmem
      rw [hrk' A (hAE.trans hsub1),
        hrk' _ ((Finset.sdiff_subset : (M1.groundset \ F) \ A ⊆ _).trans hsub1),
        hrk' _ hsub1]
      exact hA A hAmem hne hneq
  have hiff : (no_rigid_subchains M1 s = false) ↔
      (no_rigid_subchains M2 s = false) := by
    rw [no_rigid_subchains_false_iff_gen, no_rigid_subchains_false_iff_gen]
    constructor
    · rintro ⟨c, hc, F, hF, hco, hmo, hca⟩
      exact ⟨c, by rw [← hdrank]; exact hc, F, by rw [← hflats]; exact hF,
        by rw [← hconn F]; exact hco,
        by rw [← hrankdel F, ← hgs F]; exact hmo,
        by rw [← hgs F, ← hE]; exact hca⟩
    · rintro ⟨c, hc, F, hF, hco, hmo, hca⟩
      exact ⟨c, by rw [hdrank]; exact hc, F, by rw [hflats]; exact hF,
        by rw [hconn F]; exact hco,
        by rw [hrankdel F, hgs F]; exact hmo,
        by rw [hgs F, hE]; exact hca⟩
  cases hb1 : no_rigid_subchains M1 s <;>
    cases hb2 : no_rigid_subchains M2 s <;> simp_all

set_option maxHeartbeats 1000000 in
/--
Witness for C7: the concrete binary matroid against a copy whose rank
function differs outside the powerset of the groundset.
-/
theorem no_rigid_subchains_deterministic_witness :
    no_rigid_subchains (colMatroid [1, 1, 2]) 3 =
      no_rigid_subchains
        (PyMatroid.mk (Finset.range 3)
          (fun S => if S = {5} then 7 else (colMatroid [1, 1, 2]).rk S)) 3 :=
  no_rigid_subchains_deterministic (colMatroid [1, 1, 2])
    (PyMatroid.mk (Finset.range 3)
      (fun S => if S = {5} then 7 else (colMatroid [1, 1, 2]).rk S))
    rfl (by decide) 3

/--
C8: records are written only for passing graphs.  Once the line yields a
graph6 string and the decoded graph has a partition key, the per-line
processing emits no record at all when `no_rigid_subchains` is False on the
graph's matroid, and emits exactly the encoding record followed by the
orbit-count (Assur) record when it is True.
-/
theorem records_only_when_passing (decode : List Char → PyGraph)
    (orbitCount : PyGraph → ℕ) (graph_write : String) (line : List Char)
    (g6s : List Char) (p : List ℕ)
    (hg6 : g6OfLine line = some g6s)
    (hp : partitionOf (decode g6s) = some p) :
    (no_rigid_subchains (graphMatroid (decode g6s).edges) 3 = false →
      processLine decode orbitCount graph_write line = some []) ∧
    (no_rigid_subchains (graphMatroid (decode g6s).edges) 3 = true →
      processLine decode orbitCount graph_write line = some
        [(graph_write ++ "baranov_" ++ toString p, String.mk g6s ++ "\n"),
         (graph_write ++ "assur_" ++ toString p,
            number_assur orbitCount (decode g6s) ++ "\n")]) := by
  unfold processLine
  rw [hg6]
  simp only [hp]
  constructor
  · intro hno
    rw [hno]
    simp
  · intro hyes
    rw [hyes]
    simp

/-- Witness for C8 at a line decoding to the triangle-with-pendant-edge
graph, which fails the rigid-subchain test: no record is emitted. -/
theorem records_only_when_passing_witness :
    processLine (fun _ => PyGraph.mk 4 [(0,1),(1,2),(2,0),(0,3)]) (fun _ => 1)
      "" ['A', '\n'] = some [] :=
  (records_only_when_passing (fun _ => PyGraph.mk 4 [(0,1),(1,2),(2,0),(0,3)])
    (fun _ => 1) "" ['A', '\n'] ['A'] [2, 1] (by decide) (by decide)).1
    (by decide)

/-- Removing every occurrence of c from a list and counting the occurrences
partitions its length. -/
theorem filter_ne_length_add_count (c : Char) (l : List Char) :
    (l.filter (fun a => a ≠ c)).length + l.count c = l.length := by
  induction l with
  | nil => rfl
  | cons a t ih =>
    by_cases hac : a = c
    · have h1 : (a :: t).filter (fun x => x ≠ c) = t.filter (fun x => x ≠ c) := by
        simp [List.filter_cons, hac]
      have h2 : (a :: t).count c = t.count c + 1 := by
        simp [List.count_cons, hac]
      rw [h1, h2, List.length_cons]
      omega
    · have h1 : (a :: t).filter (fun x => x ≠ c) = a :: t.filter (fun x => x ≠ c) := by
        simp [List.filter_cons, hac]
      have h2 : (a :: t).count c = t.count c := by
        simp [List.count_cons, hac]
      rw [h1, h2, List.length_cons, List.length_cons]
      omega

/--
C9: the graph6 string handed to the decoder is the line with EVERY
occurrence of the line's final character removed, not just a trailing
newline: whenever the final character also occurs earlier in the line,
interior characters are deleted, so the string is strictly shorter than the
line minus its final character, differs from it and from the whole line, and
any injective decoder decodes it to a different graph than the one the line
(with or without its final character) encodes.
-/
theorem g6_strips_all_last_char_occurrences (line g6s : List Char) (c : Char)
    (hc : line.getLast? = some c) (hocc : c ∈ line.dropLast)
    (hg6 : g6OfLine line = some g6s) :
    g6s.length + 1 < line.length ∧ g6s ≠ line.dropLast ∧ g6s ≠ line ∧
      ∀ decode : List Char → PyGraph, Function.Injective decode →
        decode g6s ≠ decode line.dropLast ∧ decode g6s ≠ decode line := by
  have hne : line ≠ [] := by
    intro h
    rw [h] at hc
    simp at hc
  have hg6' : g6s = line.filter (fun a => a ≠ c) := by
    unfold g6OfLine at hg6
    rw [hc] at hg6
    exact (Option.some_inj.mp hg6).symm
  have hlast : line.getLast hne = c := by
    have h1 := List.getLast?_eq_getLast line hne
    rw [hc] at h1
    exact (Option.some_inj.mp h1).symm
  have hsplit : line.dropLast ++ [c] = line := by
    have h1 := List.dropLast_append_getLast hne
    rw [hlast] at h1
    exact h1
  have hcount : 2 ≤ line.count c := by
    have h1 : 0 < line.dropLast.count c := List.count_pos_iff.mpr hocc
    have h2 : line.count c = line.dropLast.count c + List.count c [c] := by
      conv_lhs => rw [← hsplit]
      rw [List.count_append]
    have h3 : List.count c [c] = 1 := by simp
    omega
  have hlen := filter_ne_length_add_count c line
  have hlength : g6s.length + line.count c = line.length := by
    rw [hg6']
    exact hlen
  have hdll : line.dropLast.length = line.length - 1 := List.length_dropLast line
  have hlt : g6s.length + 1 < line.length := by omega
  have hne1 : g6s ≠ line.dropLast := by
    intro h
    have h4 := congrArg List.length h
    rw [hdll] at h4
    omega
  have hne2 : g6s ≠ line := by
    intro h
    have h4 := congrArg List.length h
    omega
  exact ⟨hlt, hne1, hne2, fun decode hinjd =>
    ⟨fun h => hne1 (hinjd h), fun h => hne2 (hinjd h)⟩⟩

/-- Witness for C9 at the line "CaC": its final character C also occurs
first, so the decoder receives "a" rather than "Ca". -/
theorem g6_strips_all_last_char_occurrences_witness :
    (['a'] : List Char).length + 1 < (['C', 'a', 'C'] : List Char).length ∧
      (['a'] : List Char) ≠ (['C', 'a', 'C'] : List Char).dropLast ∧
      (['a'] : List Char) ≠ ['C', 'a', 'C'] ∧
      ∀ decode : List Char → PyGraph, Function.Injective decode →
        decode ['a'] ≠ decode (['C', 'a', 'C'] : List Char).dropLast ∧
        decode ['a'] ≠ decode ['C', 'a', 'C'] :=
  g6_strips_all_last_char_occurrences ['C', 'a', 'C'] ['a'] 'C'
    (by decide) (by decide) (by decide)

/--
C10: a decoded graph with an empty vertex set has an empty degree sequence,
so the partition-key computation fails (Python's max of an empty sequence)
instead of producing a key, and the per-line processing produces no result
for such a graph; the partition key is produced exactly when the graph has
at least one vertex.
-/
theorem partition_key_needs_vertex (g : PyGraph)
    (decode : List Char → PyGraph) (orbitCount : PyGraph → ℕ)
    (graph_write : String) (line : List Char) (g6s : List Char)
    (hg6 : g6OfLine line = some g6s) (hdec : decode g6s = g) :
    (g.n = 0 → partitionOf g = none ∧
      processLine decode orbitCount graph_write line = none) ∧
    (0 < g.n → (partitionOf g).isSome = true) := by
  constructor
  · intro h0
    have hds : g.degree_sequence = [] := by
      unfold PyGraph.degree_sequence
      rw [h0]
      rfl
    have hnone : partitionOf g = none := by
      unfold partitionOf
      rw [hds]
      rfl
    refine ⟨hnone, ?_⟩
    unfold processLine
    rw [hg6]
    simp only [hdec, hnone]
  · intro hpos
    have hds : g.degree_sequence ≠ [] := by
      intro h
      unfold PyGraph.degree_sequence at h
      rw [List.map_eq_nil_iff, List.range_eq_nil] at h
      omega
    unfold partitionOf
    cases h : g.degree_sequence.max? with
    | none =>
      rw [List.max?_eq_none_iff] at h
      exact absurd h hds
    | some m =>
      dsimp only
      rw [h]
      rfl

/-- Witness for C10 at the empty graph and a one-vertex graph. -/
theorem partition_key_needs_vertex_witness :
    (partitionOf (PyGraph.mk 0 []) = none ∧
      processLine (fun _ => PyGraph.mk 0 []) (fun _ => 1) "" ['A'] = none) ∧
    (partitionOf (PyGraph.mk 1 [])).isSome = true :=
  ⟨(partition_key_needs_vertex (PyGraph.mk 0 []) (fun _ => PyGraph.mk 0 [])
      (fun _ => 1) "" ['A'] [] (by decide) rfl).1 rfl,
   (partition_key_needs_vertex (PyGraph.mk 1 []) (fun _ => PyGraph.mk 1 [])
      (fun _ => 1) "" ['A'] [] (by decide) rfl).2 (by decide)⟩

theorem list_toFinset_map (l : List ℕ) (f : ℕ → ℕ) :
    (l.map f).toFinset = l.toFinset.image f := by
  induction l with
  | nil => simp
  | cons a t ih => simp [ih]

theorem list_toFinset_range (n : ℕ) :
    (List.range n).toFinset = Finset.range n := by
  ext a
  simp

/-- The maximum of a list of naturals is invariant under permutation. -/
theorem max?_of_perm (l l' : List ℕ) (hp : l.Perm l') : l.max? = l'.max? := by
  cases h : l'.max? with
  | none =>
    rw [List.max?_eq_none_iff] at h ⊢
    rw [h] at hp
    exact hp.eq_nil
  | some m =>
    rw [List.max?_eq_some_iff'] at h ⊢
    exact ⟨hp.mem_iff.mpr h.1, fun b hb => h.2 b (hp.mem_iff.mp hb)⟩

/--
C6: for a decoded graph of maximum degree d ≥ 2, the partition key is the
tuple whose entry for each degree value i from 2 up to d counts the vertices
of degree i (degree 0 and 1 vertices contribute no entry), and the key is
invariant under any relabeling of the vertices by an injective map of the
vertex range onto itself.
-/
theorem partition_key_counts_and_invariant (g : PyGraph) (d : ℕ)
    (hd : g.degree_sequence.max? = some d) (h2 : 2 ≤ d)
    (f : ℕ → ℕ) (hinj : Function.Injective f)
    (hmaps : ∀ v, v < g.n → f v < g.n) :
    partitionOf g = some ((List.range' 2 (d - 1)).map fun i =>
      (List.range g.n).countP (fun v => g.degree v = i)) ∧
    partitionOf (permuteVertices g f) = partitionOf g := by
  constructor
  · unfold partitionOf
    dsimp only
    rw [hd]
    have he : d + 1 - 2 = d - 1 := by omega
    show some ((List.range' 2 (d + 1 - 2)).map fun i =>
        List.count i g.degree_sequence) =
      some ((List.range' 2 (d - 1)).map fun i =>
        (List.range g.n).countP (fun v => g.degree v = i))
    rw [he]
    congr 1
    apply List.map_congr_left
    intro i _
    unfold PyGraph.degree_sequence
    have e1 : List.count i ((List.range g.n).map g.degree) =
        List.countP (fun v => g.degree v == i) (List.range g.n) := by
      rw [List.count, List.countP_map]
      rfl
    rw [e1]
    apply List.countP_congr
    intro v _
    by_cases h : g.degree v = i <;> simp [h]
  · have hdeg : ∀ v, (permuteVertices g f).degree (f v) = g.degree v := by
      intro v
      unfold PyGraph.degree permuteVertices
      dsimp only
      rw [List.filter_map, List.length_map]
      congr 1
      apply List.filter_congr
      intro e _
      simp only [Function.comp_apply]
      have hiff1 : (f e.1 = f v) ↔ (e.1 = v) := hinj.eq_iff
      have hiff2 : (f e.2 = f v) ↔ (e.2 = v) := hinj.eq_iff
      rw [show decide (f e.1 = f v) = decide (e.1 = v) from
          decide_eq_decide.mpr hiff1,
        show decide (f e.2 = f v) = decide (e.2 = v) from
          decide_eq_decide.mpr hiff2]
    have himg : Finset.image f (Finset.range g.n) = Finset.range g.n := by
      apply Finset.eq_of_subset_of_card_le
      · intro x hx
        rcases Finset.mem_image.mp hx with ⟨v, hv, rfl⟩
        exact Finset.mem_range.mpr (hmaps v (Finset.mem_range.mp hv))
      · rw [Finset.card_image_of_injective _ hinj]
    have hlist : ((List.range g.n).map f).Perm (List.range g.n) := by
      apply List.perm_of_nodup_nodup_toFinset_eq
      · exact List.Nodup.map hinj (List.nodup_range g.n)
      · exact List.nodup_range g.n
      · rw [list_toFinset_map, list_toFinset_range]
        exact himg
    have hperm : (permuteVertices g f).degree_sequence.Perm g.degree_sequence := by
      have e2 : ((List.range g.n).map f).map (permuteVertices g f).degree =
          (List.range g.n).map g.degree := by
        rw [List.map_map]
        apply List.map_congr_left
        intro v _
        exact hdeg v
      have p1 := List.Perm.map (permuteVertices g f).degree hlist
      rw [e2] at p1
      exact p1.symm
    unfold partitionOf
    dsimp only
    rw [max?_of_perm _ _ hperm]
    cases h : g.degree_sequence.max? with
    | none => rfl
    | some m =>
      show some ((List.range' 2 (m + 1 - 2)).map fun i =>
          List.count i (permuteVertices g f).degree_sequence) =
        some ((List.range' 2 (m + 1 - 2)).map fun i =>
          List.count i g.degree_sequence)
      congr 1
      apply List.map_congr_left
      intro i _
      exact hperm.count_eq i

/-- Witness for C6 at a graph with degree sequence [3, 3, 2, 2] and the
transposition of vertices 0 and 1. -/
theorem partition_key_counts_and_invariant_witness :
    partitionOf (PyGraph.mk 4 [(0,1),(0,2),(0,3),(1,2),(1,3)]) =
      some ((List.range' 2 (3 - 1)).map fun i =>
        (List.range (PyGraph.mk 4 [(0,1),(0,2),(0,3),(1,2),(1,3)]).n).countP
          (fun v =>
            (PyGraph.mk 4 [(0,1),(0,2),(0,3),(1,2),(1,3)]).degree v = i)) ∧
    partitionOf
        (permuteVertices (PyGraph.mk 4 [(0,1),(0,2),(0,3),(1,2),(1,3)])
          (fun v => if v = 0 then 1 else if v = 1 then 0 else v)) =
      partitionOf (PyGraph.mk 4 [(0,1),(0,2),(0,3),(1,2),(1,3)]) :=
  partition_key_counts_and_invariant
    (PyGraph.mk 4 [(0,1),(0,2),(0,3),(1,2),(1,3)]) 3 (by decide) (by decide)
    (fun v => if v = 0 then 1 else if v = 1 then 0 else v)
    (by
      intro a b h
      dsimp only at h
      split_ifs at h <;> omega)
    (by decide)
